import Mathlib

/-!
Verification of the `security` package of the `mcp-bedrock-kb` repository:
a shallow embedding in Lean 4 of `security/pii_detector.py`,
`security/gdpr_deletion.py` and `security/alert_manager.py`, together with
theorems settling the specification claims about them.

Python strings are modelled as `List Char`; Python machine floats used as
confidence scores and wall-clock timestamps are modelled as `ℚ`; external
library calls (the Presidio analyzer, base64/url/unicode decoders, AWS
clients, `psutil` memory readings) are modelled as oracle parameters
bundled in environment structures.  The pure glue logic of the source is
translated line by line.
-/

namespace BedrockKB

/-- Python `str` modelled as a list of characters. -/
abbrev Str := List Char

/-- Python slicing `s[a:b]` for `0 ≤ a ≤ b` (clamping, as in Python). -/
def pySlice (s : Str) (a b : Nat) : Str :=
  (s.drop a).take (b - a)

/-- Helper for `str.find`: scan a list, returning the index (offset by `i`) of
the first occurrence of `c`. -/
def pyFindAux (c : Char) : Str → Nat → Option Nat
  | [], _ => none
  | x :: xs, i => if x = c then some i else pyFindAux c xs (i + 1)

/-- Python `s.find(c, frm)`: index of the first occurrence of `c` at
position ≥ `frm`, or `none` (Python returns -1). -/
def pyFind (s : Str) (c : Char) (frm : Nat) : Option Nat :=
  pyFindAux c (s.drop frm) frm

/-! ## PII detector data model (`security/pii_detector.py`) -/

/-- The `PIIFinding` dataclass: a PII detection result. -/
structure PIIFinding where
  entity_type : Str
  start : Nat
  end_ : Nat
  score : ℚ
  text : Str
deriving DecidableEq

/-- A raw result of `analyzer.analyze` (Presidio `RecognizerResult`):
entity type, start/end offsets within the analyzed chunk, and a score. -/
structure RecogResult where
  entity_type : Str
  start : Nat
  end_ : Nat
  score : ℚ
deriving DecidableEq

/-- Environment of external effects for `PIIDetector`: the Presidio
analyzer (`none` models a raised exception, caught in
`_analyze_text_chunk`), the base64 / url / NFKC decoders used by
`_get_text_variants`, the raw memory-limit reading behind
`_get_memory_limit_mb`, the per-chunk-iteration memory check of
`detect_pii`, and the `masking_enabled` flag. -/
structure DetectorEnv where
  hasAnalyzer : Bool
  analyze : Str → Option (List RecogResult)
  b64decode : Str → Option Str
  urlUnquote : Str → Str
  nfkc : Str → Str
  memLimitRaw : Nat
  memOk : Nat → Bool
  maskingEnabled : Bool

/-- Source `PIIDetector._get_memory_limit_mb`: every branch of the source returns
at least 100 MB (`max(100, int(limit_str))`, or the 500 MB fallback); the
raw env/psutil-derived figure is the oracle `raw`. -/
def getMemoryLimitMB (raw : Nat) : Nat := max 100 raw

/-- Source `PIIDetector._get_chunk_size_chars`. -/
def getChunkSizeChars (memLimitMB textLength : Nat) : Nat :=
  let maxChars := memLimitMB * 1024 * 1024 / (4 * 2)
  if textLength ≤ maxChars / 4 then textLength
  else min maxChars (max 10000 (textLength / 10))

/-- End offset of the chunk starting at `start` in `_chunk_text`:
`end = min(start + chunk_size, len(text))`, extended to the next space when
one exists within `chunk_size + 200` of `start`. -/
def chunkEnd (text : Str) (csz start : Nat) : Nat :=
  if min (start + csz) text.length < text.length then
    match pyFind text ' ' (min (start + csz) text.length) with
    | some w => if w - start < csz + 200 then w else min (start + csz) text.length
    | none => min (start + csz) text.length
  else min (start + csz) text.length

/-- The loop of `PIIDetector._chunk_text`, with explicit fuel: `none` means
the fuel ran out while the Python `while` loop would still be running (the
loop makes no unconditional progress when `chunk_size ≤ overlap`). -/
def chunkLoop (text : Str) (csz ov : Nat) : Nat → Nat → Option (List (Str × Nat × Nat))
  | 0, _ => none
  | fuel + 1, start =>
    if start < text.length then
      let e1 := chunkEnd text csz start
      let chunk := pySlice text start e1
      if text.length ≤ e1 then some [(chunk, start, e1)]
      else
        match chunkLoop text csz ov fuel (e1 - ov) with
        | none => none
        | some rest => some ((chunk, start, e1) :: rest)
    else some []

/-- Source `PIIDetector._chunk_text` (the generator, collected into a list).  The
fuel `text.length + 1` is shown sufficient whenever `ov < csz`. -/
def chunkText (text : Str) (csz : Nat) (ov : Nat := 100) : Option (List (Str × Nat × Nat)) :=
  if text.length ≤ csz then some [(text, 0, text.length)]
  else chunkLoop text csz ov (text.length + 1) 0

/-- Source `PIIDetector._is_masking_enabled` reads `BEDROCK_KB_MASK_PII`; the
resulting flag is the `maskingEnabled` field of the environment. -/
def isMaskingEnabled (env : DetectorEnv) : Bool := env.maskingEnabled

/-- Character filter of the "cleaned" variant in `_get_text_variants`:
`c.isalnum() or c in '@._-'`. -/
def keepCleanChar (c : Char) : Bool :=
  c.isAlphanum || c = '@' || c = '.' || c = '_' || c = '-'

/-- Deduplication modelling `list(set(variants))` (Python set order is
unspecified; we keep first occurrences, which preserves membership). -/
def dedupKeepFirst (seen : List Str) : List Str → List Str
  | [] => []
  | x :: xs =>
    if x ∈ seen then dedupKeepFirst seen xs
    else x :: dedupKeepFirst (seen ++ [x]) xs

/-- Source `PIIDetector._get_text_variants`: the original text, a base64-decoded
variant (when the length is a multiple of 4 and decoding succeeds), a
url-decoded variant, an NFKC-normalized variant, and a separator-stripped
variant, deduplicated. -/
def getTextVariants (env : DetectorEnv) (text : Str) : List Str :=
  let v1 : List Str := [text]
  let v2 := v1 ++
    (if text.length % 4 = 0 then
       match env.b64decode text with
       | some d => [d]
       | none => []
     else [])
  let v3 := v2 ++ (if env.urlUnquote text ≠ text then [env.urlUnquote text] else [])
  let v4 := v3 ++ (if env.nfkc text ≠ text then [env.nfkc text] else [])
  let cleaned := text.filter keepCleanChar
  let v5 := v4 ++ (if cleaned ≠ text ∧ 5 < cleaned.length then [cleaned] else [])
  dedupKeepFirst [] v5

/-- Key used by `_deduplicate_findings`: `(finding.entity_type, finding.text)`. -/
def findingKey (f : PIIFinding) : Str × Str := (f.entity_type, f.text)

/-- One step of the `_deduplicate_findings` loop over the insertion-ordered
dict `unique_findings`. -/
def dedupInsert (m : List ((Str × Str) × PIIFinding)) (f : PIIFinding) :
    List ((Str × Str) × PIIFinding) :=
  match m with
  | [] => [(findingKey f, f)]
  | (k, g) :: rest =>
    if k = findingKey f then
      if f.score > g.score then (k, f) :: rest else (k, g) :: rest
    else (k, g) :: dedupInsert rest f

/-- Source `PIIDetector._deduplicate_findings`. -/
def deduplicateFindings (findings : List PIIFinding) : List PIIFinding :=
  if findings = [] then findings
  else (findings.foldl dedupInsert []).map (·.2)

/-- Source `PIIDetector._analyze_text_chunk`: run the analyzer on a chunk and
translate each result's offsets by `start_offset`; an analyzer exception
(`analyze` returning `none`) yields `[]`.  (`end_offset` is accepted and
unused, as in the source.) -/
def analyzeTextChunk (env : DetectorEnv) (textChunk : Str)
    (startOffset : Nat) (_endOffset : Nat) : List PIIFinding :=
  match env.analyze textChunk with
  | none => []
  | some results =>
    results.map fun r =>
      { entity_type := r.entity_type
        start := startOffset + r.start
        end_ := startOffset + r.end_
        score := r.score
        text := pySlice textChunk r.start r.end_ }

/-- The chunked-processing loop of `detect_pii`: before analyzing each
chunk the memory check runs (oracle `memOk`, indexed by iteration) and on
failure the loop `break`s. -/
def processChunks (env : DetectorEnv) : List (Str × Nat × Nat) → Nat → List PIIFinding
  | [], _ => []
  | (c, s, e) :: rest, i =>
    if env.memOk i then
      analyzeTextChunk env c s e ++ processChunks env rest (i + 1)
    else []

/-- The findings contributed by one variant in the `detect_pii` loop:
skip all-whitespace variants; analyze small variants whole; chunk large
ones (chunking always succeeds there, the fuel bound being proved below). -/
def perVariantFindings (env : DetectorEnv) (v : Str) : List PIIFinding :=
  if v.all Char.isWhitespace then []
  else if v.length ≤ getChunkSizeChars (getMemoryLimitMB env.memLimitRaw) v.length then
    analyzeTextChunk env v 0 v.length
  else
    match chunkText v (getChunkSizeChars (getMemoryLimitMB env.memLimitRaw) v.length) with
    | none => []
    | some chunks => processChunks env chunks 0

/-- Source `PIIDetector.detect_pii`: no analyzer → `[]`; otherwise scan every
encoding variant (chunked when large) and deduplicate the merged findings. -/
def detectPii (env : DetectorEnv) (text : Str) : List PIIFinding :=
  if ¬ env.hasAnalyzer then []
  else
    let variants := getTextVariants env text
    let allFindings :=
      variants.foldl (fun acc v => acc ++ perVariantFindings env v) []
    deduplicateFindings allFindings

/-- The replacement token chain of `_full_mask`. -/
def maskReplacement (entityType : Str) : Str :=
  if entityType = "EMAIL_ADDRESS".toList then "[EMAIL_REDACTED]".toList
  else if entityType = "PHONE_NUMBER".toList then "[PHONE_REDACTED]".toList
  else if entityType = "CREDIT_CARD".toList then "[CREDIT_CARD_REDACTED]".toList
  else if entityType = "US_SSN".toList then "[SSN_REDACTED]".toList
  else if entityType = "PERSON".toList then "[NAME_REDACTED]".toList
  else if entityType = "US_PASSPORT".toList then "[PASSPORT_REDACTED]".toList
  else if entityType = "IP_ADDRESS".toList then "[IP_REDACTED]".toList
  else "[PII_REDACTED]".toList

/-- Stable descending insertion by `start`, modelling
`sorted(findings, key=lambda x: x.start, reverse=True)` (Python's sort is
stable; on equal keys the original order is kept). -/
def insertByStartDesc (f : PIIFinding) : List PIIFinding → List PIIFinding
  | [] => [f]
  | g :: gs => if g.start > f.start then g :: insertByStartDesc f gs else f :: g :: gs

/-- Stable sort of findings by `start`, descending. -/
def sortByStartDesc : List PIIFinding → List PIIFinding
  | [] => []
  | f :: fs => insertByStartDesc f (sortByStartDesc fs)

/-- Source `PIIDetector._full_mask`: replace each finding's span (back to front)
with its per-entity-type placeholder. -/
def fullMask (text : Str) (findings : List PIIFinding) : Str :=
  (sortByStartDesc findings).foldl
    (fun masked f =>
      masked.take f.start ++ maskReplacement f.entity_type ++ masked.drop f.end_)
    text

/-- Source `PIIDetector.mask_pii`. -/
def maskPii (env : DetectorEnv) (text : Str) : Str × List PIIFinding :=
  let findings := detectPii env text
  if findings = [] then (text, findings)
  else if env.maskingEnabled then (fullMask text findings, findings)
  else (text, findings)

/-! ## Alert manager data model (`security/alert_manager.py`) -/

/-- The `AlertLevel` enum. -/
inductive AlertLevel where
  | INFO | WARNING | ERROR | CRITICAL
deriving DecidableEq

/-- The `level_priority` table of `AlertManager._send_to_channels`:
`INFO < WARNING < ERROR < CRITICAL`. -/
def levelRank : AlertLevel → Nat
  | .INFO => 1
  | .WARNING => 2
  | .ERROR => 3
  | .CRITICAL => 4

/-- The `FailureMode` enum. -/
inductive FailureMode where
  | PII_DETECTION_FAILURE | AWS_CONNECTION_FAILURE | MEMORY_EXHAUSTION
  | AUTHENTICATION_FAILURE | DATA_CORRUPTION | SECURITY_BREACH
  | SERVICE_UNAVAILABLE | CONFIGURATION_ERROR | UNKNOWN_ERROR
  | LOG_ONLY | RETRY_EXPONENTIAL | FAIL_FAST
deriving DecidableEq

/-- String value of a `FailureMode` (its `.value`). -/
def failureModeValue : FailureMode → Str
  | .PII_DETECTION_FAILURE => "pii_detection_failure".toList
  | .AWS_CONNECTION_FAILURE => "aws_connection_failure".toList
  | .MEMORY_EXHAUSTION => "memory_exhaustion".toList
  | .AUTHENTICATION_FAILURE => "auth_failure".toList
  | .DATA_CORRUPTION => "data_corruption".toList
  | .SECURITY_BREACH => "security_breach".toList
  | .SERVICE_UNAVAILABLE => "service_unavailable".toList
  | .CONFIGURATION_ERROR => "config_error".toList
  | .UNKNOWN_ERROR => "unknown_error".toList
  | .LOG_ONLY => "log_only".toList
  | .RETRY_EXPONENTIAL => "retry_exponential".toList
  | .FAIL_FAST => "fail_fast".toList

/-- The `Alert` dataclass (metadata modelled as string pairs, timestamps as
rationals). -/
structure Alert where
  id : Str
  level : AlertLevel
  failure_mode : FailureMode
  message : Str
  source : Str
  timestamp : ℚ
  metadata : List (Str × Str) := []
  resolved : Bool := false
  resolved_at : Option ℚ := none
  count : Nat := 1
deriving DecidableEq

/-- The `AlertChannel` dataclass (the `config` dict is irrelevant to
delivery selection and is not modelled). -/
structure AlertChannel where
  name : Str
  type : Str
  enabled : Bool := true
  min_level : AlertLevel := .WARNING
deriving DecidableEq

/-- State of an `AlertThrottler`: `window_seconds`, `max_alerts`, and the
per-key deque of send timestamps (`defaultdict(deque)`, oldest first). -/
structure ThrottlerState where
  window_seconds : Nat
  max_alerts : Nat
  alert_history : Str → List ℚ

/-- The eviction loop of `should_send_alert`:
`while history and history[0] < now - window_seconds: popleft`. -/
def evictOld (wsec : Nat) (now : ℚ) : List ℚ → List ℚ
  | [] => []
  | t :: ts => if t < now - (wsec : ℚ) then evictOld wsec now ts else t :: ts

/-- Source `AlertThrottler.should_send_alert` (the current wall clock passed
explicitly): evict old timestamps, reject when `max_alerts` remain, else
append `now` and admit.  Returns the decision and the updated state. -/
def shouldSendAlert (st : ThrottlerState) (alertKey : Str) (now : ℚ) :
    Bool × ThrottlerState :=
  let history := evictOld st.window_seconds now (st.alert_history alertKey)
  if st.max_alerts ≤ history.length then
    (false, { st with alert_history := fun k =>
                if k = alertKey then history else st.alert_history k })
  else
    (true, { st with alert_history := fun k =>
               if k = alertKey then history ++ [now] else st.alert_history k })

/-- State of an `AlertManager`: channels (insertion-ordered dict, keyed by
channel name), active alerts keyed by `source_failuremode`, bounded
history, and the throttler. -/
structure ManagerState where
  channels : List AlertChannel
  active_alerts : Str → Option Alert
  alert_history : List Alert
  throttler : ThrottlerState

/-- Argument of `send_alert`, which accepts either an `Alert` object or an
`AlertLevel` with discrete parameters. -/
inductive AlertArg where
  | lvl (l : AlertLevel)
  | obj (a : Alert)

/-- Decimal rendering of `int(time.time())` used inside alert ids. -/
def intTimeStr (now : ℚ) : Str := (toString now.floor).toList

/-- The `alert_key` computed by `send_alert`: `source_failuremode` (from the
`Alert` object's own fields when one is passed). -/
def alertKeyOf (arg : AlertArg) (failureMode : FailureMode) (source : Str) : Str :=
  match arg with
  | .obj a => a.source ++ "_".toList ++ failureModeValue a.failure_mode
  | .lvl _ => source ++ "_".toList ++ failureModeValue failureMode

/-- The `alert_id` computed by `send_alert` (for an `Alert` object, its own
id unless falsy). -/
def alertIdOf (arg : AlertArg) (failureMode : FailureMode) (source : Str) (now : ℚ) : Str :=
  match arg with
  | .obj a =>
    if a.id = [] then
      a.source ++ "_".toList ++ failureModeValue a.failure_mode ++ "_".toList ++ intTimeStr now
    else a.id
  | .lvl _ =>
    source ++ "_".toList ++ failureModeValue failureMode ++ "_".toList ++ intTimeStr now

/-- The channel filter of `AlertManager._send_to_channels`: enabled
channels whose `min_level` rank is at most the alert's rank receive the
alert (delivery itself is I/O; the list of receiving channels is
returned). -/
def channelsReceiving (channels : List AlertChannel) (alert : Alert) : List AlertChannel :=
  channels.filter fun c => c.enabled && levelRank alert.level ≥ levelRank c.min_level

/-- Source `AlertManager.send_alert` (wall clock and metadata passed
explicitly).  Returns the alert id, the updated manager state and the
channels the alert was delivered to. -/
def sendAlert (st : ManagerState) (arg : AlertArg) (failureMode : FailureMode)
    (message : Str) (source : Str) (metadata : List (Str × Str)) (now : ℚ) :
    Str × ManagerState × List AlertChannel :=
  let alertKey := alertKeyOf arg failureMode source
  let alertId := alertIdOf arg failureMode source now
  let throttleRes := shouldSendAlert st.throttler alertKey now
  let throttler' := throttleRes.2
  if ¬ throttleRes.1 then
    -- Throttled: increment the count of the existing active alert, if any.
    let active' : Str → Option Alert := fun k =>
      if k = alertKey then
        match st.active_alerts alertKey with
        | some a => some { a with count := a.count + 1 }
        | none => none
      else st.active_alerts k
    (alertId, { st with active_alerts := active', throttler := throttler' }, [])
  else
    let alert : Alert :=
      match arg with
      | .obj a => a
      | .lvl l =>
        { id := alertId, level := l, failure_mode := failureMode, message := message,
          source := source, timestamp := now, metadata := metadata }
    let active' : Str → Option Alert := fun k =>
      if k = alertKey then some alert else st.active_alerts k
    let history := st.alert_history ++ [alert]
    let history' := if 1000 < history.length then history.drop (history.length - 1000) else history
    (alertId,
     { st with active_alerts := active', alert_history := history', throttler := throttler' },
     channelsReceiving st.channels alert)

/-! ## GDPR deletion data model (`security/gdpr_deletion.py`) -/

/-- The `DeletionRequest` dataclass (`requested_at` as a rational epoch
timestamp). -/
structure DeletionRequest where
  request_id : Str
  subject_identifiers : List Str
  knowledge_base_ids : List Str
  requested_at : ℚ
  status : Str := "pending".toList
  deleted_documents : List Str := []
  deletion_log : List Str := []
  verification_status : Str := "not_verified".toList
deriving DecidableEq

/-- The `DeletionResult` dataclass. -/
structure DeletionResult where
  success : Bool
  request_id : Str
  deleted_documents : List Str
  deleted_vectors : Nat
  remaining_references : List Str
  verification_passed : Bool
  error_messages : List Str := []
  deletion_log : List Str := []
deriving DecidableEq

/-- The `VerificationResult` dataclass. -/
structure VerificationResult where
  success : Bool
  remaining_references : List Str
deriving DecidableEq

/-- An affected document as built by `_identify_affected_documents`. -/
structure AffectedDoc where
  knowledge_base_id : Str
  s3_bucket : Str
  s3_key : Str
deriving DecidableEq

/-- Environment of external effects for `GDPRDeletionManager.execute_deletion`:
the four AWS-bound phases and the knowledge-base search are oracles whose
`Except.error` models an unhandled exception escaping that call; the PII
detector used for masking identifiers is the embedded one. -/
structure GdprEnv where
  identifyDocs : DeletionRequest → Except Str (List AffectedDoc)
  deleteS3Docs : DeletionRequest → List AffectedDoc → Except Str (List Str)
  deleteVectors : DeletionRequest → List AffectedDoc → Except Str Nat
  syncDatasources : DeletionRequest → Except Str Unit
  searchKB : Str → Str → Except Str (List Str)
  detector : DetectorEnv

/-- Map of stored deletion requests (`self.deletion_requests`). -/
abbrev RequestMap := Str → Option DeletionRequest

/-- Source `GDPRDeletionManager.create_deletion_request` (wall clock and the
formatted timestamp of the generated id passed explicitly).  Raising
`ValueError` is modelled by `Except.error`, in which case the caller's
request map is untouched. -/
def createDeletionRequest (reqs : RequestMap) (subjectIdentifiers : List Str)
    (knowledgeBaseIds : List Str) (requestId : Option Str) (now : ℚ) (tsStr : Str) :
    Except Str (Str × RequestMap) :=
  let rid := match requestId with
    | some r => if r = [] then "gdpr_del_".toList ++ tsStr else r
    | none => "gdpr_del_".toList ++ tsStr
  match reqs rid with
  | some _ => .error ("Request ID ".toList ++ rid ++ " already exists".toList)
  | none =>
    let request : DeletionRequest :=
      { request_id := rid
        subject_identifiers := subjectIdentifiers
        knowledge_base_ids := knowledgeBaseIds
        requested_at := now }
    .ok (rid, fun k => if k = rid then some request else reqs k)

/-- The verification loop of `_verify_deletion` over knowledge-base ids ×
identifiers, accumulating remaining references; an oracle error is an
exception escaping to the surrounding `try`. -/
def verifyLoop (env : GdprEnv) (kbIds : List Str) (identifiers : List Str) :
    Except Str (List Str) :=
  kbIds.foldl
    (fun acc kb =>
      match acc with
      | .error e => .error e
      | .ok remaining =>
        identifiers.foldl
          (fun acc2 identifier =>
            match acc2 with
            | .error e => .error e
            | .ok rem =>
              let maskedId := (maskPii env.detector identifier).1
              match env.searchKB kb identifier with
              | .error e => .error e
              | .ok results =>
                if results ≠ [] then
                  .ok (rem ++ ["KB:".toList ++ kb ++ " still contains references to ".toList ++ maskedId])
                else .ok rem)
          (.ok remaining))
    (.ok [])

/-- Source `GDPRDeletionManager._verify_deletion`: on an exception the
result is `VerificationResult(False, ["Verification error: ..."])`, else
success exactly when no remaining references were found. -/
def verifyDeletion (env : GdprEnv) (request : DeletionRequest) : VerificationResult :=
  match verifyLoop env request.knowledge_base_ids request.subject_identifiers with
  | .error e => { success := false, remaining_references := ["Verification error: ".toList ++ e] }
  | .ok remaining => { success := remaining.length = 0, remaining_references := remaining }

/-- Decimal rendering of a `Nat` as a character list. -/
def natStr (n : Nat) : Str := (toString n).toList

/-- The first exception raised during phases 1–4 of `execute_deletion`, if
any, together with the log lines and partial results accumulated before it. -/
def phasesOutcome (env : GdprEnv) (request : DeletionRequest) :
    Except (Str × List Str × List Str × Nat) (List AffectedDoc × List Str × Nat × List Str) :=
  match env.identifyDocs request with
  | .error e => .error (e, [], [], 0)
  | .ok docs =>
    let log1 := ["Identified ".toList ++ natStr docs.length ++ " potentially affected documents".toList]
    match env.deleteS3Docs request docs with
    | .error e => .error (e, log1, [], 0)
    | .ok deletedDocs =>
      let log2 := log1 ++ ["Deleted ".toList ++ natStr deletedDocs.length ++ " documents from S3".toList]
      match env.deleteVectors request docs with
      | .error e => .error (e, log2, deletedDocs, 0)
      | .ok deletedVectors =>
        let log3 := log2 ++ ["Deleted ".toList ++ natStr deletedVectors ++ " vector embeddings".toList]
        match env.syncDatasources request with
        | .error e => .error (e, log3, deletedDocs, deletedVectors)
        | .ok _ =>
          let log4 := log3 ++ ["Synchronized all data sources".toList]
          .ok (docs, deletedDocs, deletedVectors, log4)

/-- The `try`/`except` body of `execute_deletion` acting on the
`in_progress` request: yields the `DeletionResult` and the request with its
status fields updated. -/
def executeDeletionBody (env : GdprEnv) (requestId : Str) (request1 : DeletionRequest) :
    DeletionResult × DeletionRequest :=
  match phasesOutcome env request1 with
  | .error (e, log, deletedDocs, deletedVectors) =>
    ({ success := false, request_id := requestId, deleted_documents := deletedDocs,
       deleted_vectors := deletedVectors, remaining_references := [],
       verification_passed := false,
       error_messages := ["Deletion execution failed: ".toList ++ e],
       deletion_log := log : DeletionResult },
     { request1 with status := "failed".toList })
  | .ok (_docs, deletedDocs, deletedVectors, log4) =>
    if (verifyDeletion env request1).success then
      ({ success := true, request_id := requestId, deleted_documents := deletedDocs,
         deleted_vectors := deletedVectors,
         remaining_references := (verifyDeletion env request1).remaining_references,
         verification_passed := true,
         deletion_log := log4 ++ ["Deletion verified successfully - no PII traces found".toList] :
         DeletionResult },
       { request1 with status := "completed".toList,
                       verification_status := "verified".toList })
    else
      ({ success := false, request_id := requestId, deleted_documents := deletedDocs,
         deleted_vectors := deletedVectors,
         remaining_references := (verifyDeletion env request1).remaining_references,
         verification_passed := false,
         error_messages := ["Verification failed: ".toList ++
           natStr (verifyDeletion env request1).remaining_references.length ++
           " references still found".toList],
         deletion_log := log4 : DeletionResult },
       { request1 with status := "failed".toList,
                       verification_status := "failed".toList })

/-- Source `GDPRDeletionManager.execute_deletion`: unknown request id
raises; otherwise the request goes `in_progress`, the five phases run
inside `try` (`executeDeletionBody`), verification gates success, any phase
exception moves the request to `failed` with an error message while the
partial result is still returned, and the request's log and deleted
documents are recorded. -/
def executeDeletion (env : GdprEnv) (reqs : RequestMap) (requestId : Str) :
    Except Str (DeletionResult × RequestMap) :=
  match reqs requestId with
  | none => .error ("Deletion request ".toList ++ requestId ++ " not found".toList)
  | some request0 =>
    let rr := executeDeletionBody env requestId { request0 with status := "in_progress".toList }
    let request3 := { rr.2 with deletion_log := rr.1.deletion_log,
                                deleted_documents := rr.1.deleted_documents }
    .ok (rr.1, fun k => if k = requestId then some request3 else reqs k)

/-! ## Concrete instances used by counterexamples and witnesses -/

/-- A detector environment whose analyzer recognizes one email inside the
separator-stripped variant of `cexText` and nothing else; all decoders are
inert, memory never runs out. -/
def env0 : DetectorEnv :=
  { hasAnalyzer := true
    analyze := fun chunk =>
      if chunk = "test@x.co".toList then some [⟨"EMAIL_ADDRESS".toList, 0, 9, 1⟩]
      else some []
    b64decode := fun _ => none
    urlUnquote := id
    nfkc := id
    memLimitRaw := 500
    memOk := fun _ => true
    maskingEnabled := true }

/-- A text whose separator-stripped variant (`!` removed) contains an email. -/
def cexText : Str := "t!est@x.co".toList

/-- The finding `detect_pii` returns on `cexText` under `env0`: its offsets
point into the stripped variant, not the original text. -/
def cexFinding : PIIFinding :=
  { entity_type := "EMAIL_ADDRESS".toList, start := 0, end_ := 9, score := 1,
    text := "test@x.co".toList }

/-- A detector environment with no analyzer loaded: `detect_pii` finds
nothing. -/
def detNone : DetectorEnv :=
  { hasAnalyzer := false
    analyze := fun _ => some []
    b64decode := fun _ => none
    urlUnquote := id
    nfkc := id
    memLimitRaw := 500
    memOk := fun _ => true
    maskingEnabled := true }

/-- Example text for the full-redaction scenario of the spec: one email,
phone, credit card, SSN and person, in that order, separated by single
spaces. -/
def exText : Str := "a@b.c 123 4111 456 Bob".toList

/-- Findings for `exText` at the correct offsets. -/
def exFindings : List PIIFinding :=
  [ ⟨"EMAIL_ADDRESS".toList, 0, 5, 9/10, "a@b.c".toList⟩,
    ⟨"PHONE_NUMBER".toList, 6, 9, 9/10, "123".toList⟩,
    ⟨"CREDIT_CARD".toList, 10, 14, 9/10, "4111".toList⟩,
    ⟨"US_SSN".toList, 15, 18, 9/10, "456".toList⟩,
    ⟨"PERSON".toList, 19, 22, 9/10, "Bob".toList⟩ ]

/-- A GDPR environment whose phase oracles all succeed trivially and whose
knowledge-base search finds nothing. -/
def gdprEnv0 : GdprEnv :=
  { identifyDocs := fun _ => .ok []
    deleteS3Docs := fun _ _ => .ok []
    deleteVectors := fun _ _ => .ok 0
    syncDatasources := fun _ => .ok ()
    searchKB := fun _ _ => .ok []
    detector := detNone }

/-- A concrete stored request id. -/
def rid0 : Str := "r1".toList

/-- A concrete stored deletion request. -/
def req0 : DeletionRequest :=
  { request_id := rid0
    subject_identifiers := ["u@x".toList]
    knowledge_base_ids := ["kb1".toList]
    requested_at := 0 }

/-- A request map holding exactly `req0`. -/
def reqs0 : RequestMap := fun k => if k = rid0 then some req0 else none

/-! ## Proof-support definitions -/

/-- First entry of an association list at a key (the dict lookup
`unique_findings[key]`). -/
def assocFind (k : Str × Str) : List ((Str × Str) × PIIFinding) → Option PIIFinding
  | [] => none
  | (k0, g) :: rest => if k0 = k then some g else assocFind k rest

/-- The guarantee Presidio gives about `analyzer.analyze` results: offsets
are a nonempty in-bounds span of the analyzed chunk. -/
def AnalyzerInBounds (env : DetectorEnv) : Prop :=
  ∀ chunk rs, env.analyze chunk = some rs →
    ∀ r ∈ rs, r.start < r.end_ ∧ r.end_ ≤ chunk.length

/-! ## Theorems -/

/-- C2: `mask_pii(t)` returns `(t, [])` when detection finds nothing;
with findings and masking enabled it returns the fully redacted text with
the findings; with masking disabled it returns the original `t` together
with the findings. -/
theorem maskPii_three_cases (env : DetectorEnv) (t : Str) :
    (detectPii env t = [] → maskPii env t = (t, [])) ∧
    (detectPii env t ≠ [] → env.maskingEnabled = true →
      maskPii env t = (fullMask t (detectPii env t), detectPii env t)) ∧
    (detectPii env t ≠ [] → env.maskingEnabled = false →
      maskPii env t = (t, detectPii env t)) := by
  refine ⟨fun h => ?_, fun h hm => ?_, fun h hm => ?_⟩ <;>
    simp [maskPii, h, *]

/-- C9: masking is idempotent on clean output: `mask_pii` is a no-op on a
text with zero findings, and when the second detection pass on the masked
text finds nothing, masking the masked text returns it unchanged. -/
theorem maskPii_idempotent_on_clean (env : DetectorEnv) (t : Str) :
    (detectPii env t = [] → (maskPii env t).1 = t) ∧
    (detectPii env ((maskPii env t).1) = [] →
      (maskPii env ((maskPii env t).1)).1 = (maskPii env t).1) := by
  refine ⟨fun h => ?_, fun h => ?_⟩
  · simp [maskPii, h]
  · generalize hm : (maskPii env t).1 = m at h ⊢
    simp [maskPii, h]

/-- C3: full redaction replaces each span with the fixed per-entity-type
placeholder (the eight tokens of the source's chain, with the generic
`[PII_REDACTED]` for any other type), and the five-finding example text
masks to exactly the five placeholders separated by single spaces. -/
theorem fullMask_placeholder_table_and_example :
    maskReplacement "EMAIL_ADDRESS".toList = "[EMAIL_REDACTED]".toList ∧
    maskReplacement "PHONE_NUMBER".toList = "[PHONE_REDACTED]".toList ∧
    maskReplacement "CREDIT_CARD".toList = "[CREDIT_CARD_REDACTED]".toList ∧
    maskReplacement "US_SSN".toList = "[SSN_REDACTED]".toList ∧
    maskReplacement "PERSON".toList = "[NAME_REDACTED]".toList ∧
    maskReplacement "US_PASSPORT".toList = "[PASSPORT_REDACTED]".toList ∧
    maskReplacement "IP_ADDRESS".toList = "[IP_REDACTED]".toList ∧
    (∀ ty, ty ∉ ["EMAIL_ADDRESS".toList, "PHONE_NUMBER".toList, "CREDIT_CARD".toList,
        "US_SSN".toList, "PERSON".toList, "US_PASSPORT".toList, "IP_ADDRESS".toList] →
      maskReplacement ty = "[PII_REDACTED]".toList) ∧
    fullMask exText exFindings =
      "[EMAIL_REDACTED] [PHONE_REDACTED] [CREDIT_CARD_REDACTED] [SSN_REDACTED] [NAME_REDACTED]".toList := by
  refine ⟨by decide, by decide, by decide, by decide, by decide, by decide, by decide,
    fun ty hty => ?_, by decide⟩
  simp only [List.mem_cons, List.not_mem_nil, or_false, not_or] at hty
  obtain ⟨h1, h2, h3, h4, h5, h6, h7⟩ := hty
  unfold maskReplacement
  rw [if_neg h1, if_neg h2, if_neg h3, if_neg h4, if_neg h5, if_neg h6, if_neg h7]

/-- C5: `create_deletion_request` with an explicit id already stored raises
a validation error (leaving the request map untouched); with a fresh
explicit id it stores a new request in `pending` status and changes no
other entry. -/
theorem createDeletionRequest_duplicate_and_fresh (reqs : RequestMap)
    (ids kbs : List Str) (rid : Str) (now : ℚ) (ts : Str) (r : DeletionRequest) :
    (rid ≠ [] → reqs rid = some r →
      createDeletionRequest reqs ids kbs (some rid) now ts =
        .error ("Request ID ".toList ++ rid ++ " already exists".toList)) ∧
    (rid ≠ [] → reqs rid = none →
      ∃ m', createDeletionRequest reqs ids kbs (some rid) now ts = .ok (rid, m') ∧
        (∃ req', m' rid = some req' ∧ req'.status = "pending".toList ∧
          req'.request_id = rid ∧ req'.subject_identifiers = ids ∧
          req'.knowledge_base_ids = kbs) ∧
        (∀ k, k ≠ rid → m' k = reqs k)) := by
  constructor
  · intro hne h
    simp [createDeletionRequest, hne, h]
  · intro hne h
    refine ⟨fun k => if k = rid then
        some { request_id := rid, subject_identifiers := ids,
               knowledge_base_ids := kbs, requested_at := now } else reqs k,
      ?_, ?_, fun k hk => by simp [hk]⟩
    · simp [createDeletionRequest, hne, h]
    · exact ⟨{ request_id := rid, subject_identifiers := ids,
               knowledge_base_ids := kbs, requested_at := now },
        by simp, rfl, rfl, rfl, rfl⟩

/-- C6: `should_send_alert` first evicts timestamps older than the window
from the key's deque and admits the event exactly when the remaining count
is below `max_alerts`; with a one-second window and one alert per window, a
second call within the window is rejected and a call after the window has
elapsed is admitted again. -/
theorem shouldSendAlert_evict_then_admit (st : ThrottlerState) (key : Str) (now : ℚ) :
    ((shouldSendAlert st key now).1 = true ↔
      (evictOld st.window_seconds now (st.alert_history key)).length < st.max_alerts) ∧
    ((shouldSendAlert st key now).2.alert_history key =
      evictOld st.window_seconds now (st.alert_history key) ++
        (if (shouldSendAlert st key now).1 then [now] else [])) ∧
    (∀ t0 t1 t2 : ℚ, t1 ≤ t0 + 1 → t0 + 1 < t2 →
      (shouldSendAlert ⟨1, 1, fun _ => []⟩ key t0).1 = true ∧
      (shouldSendAlert (shouldSendAlert ⟨1, 1, fun _ => []⟩ key t0).2 key t1).1 = false ∧
      (shouldSendAlert (shouldSendAlert (shouldSendAlert ⟨1, 1, fun _ => []⟩ key t0).2 key t1).2
        key t2).1 = true) := by
  refine ⟨?_, ?_, ?_⟩
  · by_cases hc : st.max_alerts ≤
        (evictOld st.window_seconds now (st.alert_history key)).length
    · simp [shouldSendAlert, hc]
    · simp [shouldSendAlert, hc]
      omega
  · by_cases hc : st.max_alerts ≤
        (evictOld st.window_seconds now (st.alert_history key)).length
    · simp [shouldSendAlert, hc]
    · simp [shouldSendAlert, hc]
  · intro t0 t1 t2 h01 h02
    have hkeep : ¬ (t0 < t1 - ((1 : Nat) : ℚ)) := by
      push_cast
      linarith
    have hdrop : t0 < t2 - ((1 : Nat) : ℚ) := by
      push_cast
      linarith
    have s1 : shouldSendAlert ⟨1, 1, fun _ => []⟩ key t0 =
        (true, ⟨1, 1, fun k => if k = key then [t0] else []⟩) := by
      simp [shouldSendAlert, evictOld]
    rw [s1]
    have s2 : shouldSendAlert ⟨1, 1, fun k => if k = key then [t0] else []⟩ key t1 =
        (false, ⟨1, 1, fun k => if k = key then [t0] else []⟩) := by
      simp only [shouldSendAlert, evictOld, if_pos rfl, if_neg hkeep]
      norm_num
      funext k
      by_cases hk : k = key <;> simp [hk]
    rw [s2]
    refine ⟨rfl, rfl, ?_⟩
    simp only [shouldSendAlert, evictOld, if_pos rfl, if_neg, hdrop, if_true]
    simp [hdrop]

/-- C7: `send_alert` keeps the history at most 1000 alerts long; a throttled
call appends no history entry, delivers to no channel and only bumps the
count of the existing active alert under the `source_failuremode` key; a
non-throttled call stores the alert in the active registry, appends it to
the bounded history, and delivers it exactly to the enabled channels whose
`min_level` is at or below the alert's level. -/
theorem sendAlert_throttle_history_delivery (st : ManagerState) (arg : AlertArg)
    (fm : FailureMode) (msg source : Str) (md : List (Str × Str)) (now : ℚ) :
    (st.alert_history.length ≤ 1000 →
      (sendAlert st arg fm msg source md now).2.1.alert_history.length ≤ 1000) ∧
    ((shouldSendAlert st.throttler (alertKeyOf arg fm source) now).1 = false →
      (sendAlert st arg fm msg source md now).2.1.alert_history = st.alert_history ∧
      (sendAlert st arg fm msg source md now).2.2 = [] ∧
      (∀ k, k ≠ alertKeyOf arg fm source →
        (sendAlert st arg fm msg source md now).2.1.active_alerts k = st.active_alerts k) ∧
      (∀ a, st.active_alerts (alertKeyOf arg fm source) = some a →
        (sendAlert st arg fm msg source md now).2.1.active_alerts (alertKeyOf arg fm source) =
          some { a with count := a.count + 1 }) ∧
      (st.active_alerts (alertKeyOf arg fm source) = none →
        (sendAlert st arg fm msg source md now).2.1.active_alerts (alertKeyOf arg fm source) =
          none)) ∧
    ((shouldSendAlert st.throttler (alertKeyOf arg fm source) now).1 = true →
      ∃ alert,
        (sendAlert st arg fm msg source md now).2.1.active_alerts (alertKeyOf arg fm source) =
          some alert ∧
        (sendAlert st arg fm msg source md now).2.1.alert_history =
          (if 1000 < (st.alert_history ++ [alert]).length then
            (st.alert_history ++ [alert]).drop ((st.alert_history ++ [alert]).length - 1000)
           else st.alert_history ++ [alert]) ∧
        (∀ c, c ∈ (sendAlert st arg fm msg source md now).2.2 ↔
          c ∈ st.channels ∧ c.enabled = true ∧
            levelRank c.min_level ≤ levelRank alert.level)) := by
  by_cases hth : (shouldSendAlert st.throttler (alertKeyOf arg fm source) now).1
  · -- admitted by the throttler
    refine ⟨?_, by simp [hth], fun _ => ?_⟩
    · intro hlen
      simp only [sendAlert, hth, not_true_eq_false, if_false]
      split
      · rename_i hgt
        simp only [List.length_drop, List.length_append, List.length_singleton]
        omega
      · rename_i hgt
        simp only [List.length_append, List.length_singleton] at hgt ⊢
        omega
    · cases arg with
      | obj a =>
        refine ⟨a, by simp [sendAlert, hth], by simp [sendAlert, hth], fun c => ?_⟩
        simp only [sendAlert, hth, not_true_eq_false, if_false, channelsReceiving,
          List.mem_filter, Bool.and_eq_true, decide_eq_true_eq, ge_iff_le]
      | lvl l =>
        refine ⟨{ id := alertIdOf (.lvl l) fm source now, level := l, failure_mode := fm,
                  message := msg, source := source, timestamp := now, metadata := md },
          by simp [sendAlert, hth], by simp [sendAlert, hth], fun c => ?_⟩
        simp only [sendAlert, hth, not_true_eq_false, if_false, channelsReceiving,
          List.mem_filter, Bool.and_eq_true, decide_eq_true_eq, ge_iff_le]
  · -- throttled
    rw [Bool.not_eq_true] at hth
    refine ⟨?_, fun _ => ?_, fun h => by rw [hth] at h; exact absurd h (by simp)⟩
    · intro hlen
      simp [sendAlert, hth, hlen]
    · refine ⟨by simp [sendAlert, hth], by simp [sendAlert, hth], ?_, ?_, ?_⟩
      · intro k hk
        simp [sendAlert, hth, hk]
      · intro a ha
        simp [sendAlert, hth, ha]
      · intro ha
        simp [sendAlert, hth, ha]

/-- Bounds of `pyFindAux`: a hit lies at or after the running index, within
the scanned suffix. -/
theorem pyFindAux_bounds (c : Char) : ∀ (l : Str) (i w : Nat),
    pyFindAux c l i = some w → i ≤ w ∧ w < i + l.length := by
  intro l
  induction l with
  | nil => intro i w h; simp [pyFindAux] at h
  | cons x xs ih =>
    intro i w h
    simp only [pyFindAux] at h
    split at h
    · injection h with h'
      subst h'
      simp only [List.length_cons]
      omega
    · have := ih (i + 1) w h
      simp only [List.length_cons]
      omega

/-- Bounds of `pyFind`: a hit lies at or after `frm` and inside the text. -/
theorem pyFind_bounds (s : Str) (c : Char) (frm w : Nat) (h : pyFind s c frm = some w) :
    frm ≤ w ∧ w < s.length := by
  have h2 := pyFindAux_bounds c (s.drop frm) frm w h
  simp only [List.length_drop] at h2
  omega

/-- Bounds of `chunkEnd`: the chunk end stays between `start` and the end
of the text, and within `start + chunk_size + 200`. -/
theorem chunkEnd_bounds (text : Str) (csz start : Nat) (h : start ≤ text.length) :
    start ≤ chunkEnd text csz start ∧ chunkEnd text csz start ≤ text.length ∧
      chunkEnd text csz start ≤ start + csz + 200 := by
  have hm1 : min (start + csz) text.length ≤ text.length := min_le_right _ _
  have hm2 : min (start + csz) text.length ≤ start + csz := min_le_left _ _
  have hm3 : start ≤ min (start + csz) text.length := le_min (by omega) h
  unfold chunkEnd
  split
  · split
    · rename_i w hw
      have hb := pyFind_bounds text ' ' _ w hw
      split <;> omega
    · omega
  · omega

/-- Progress of `chunkEnd`: when the chunk end is strictly inside the text,
it is at least `start + chunk_size`. -/
theorem chunkEnd_progress (text : Str) (csz start : Nat) :
    chunkEnd text csz start < text.length → start + csz ≤ chunkEnd text csz start := by
  have hmin : min (start + csz) text.length < text.length →
      min (start + csz) text.length = start + csz := by
    rcases Nat.le_total (start + csz) text.length with hle | hle
    · intro _; exact min_eq_left hle
    · intro hc; rw [min_eq_right hle] at hc; omega
  unfold chunkEnd
  split
  · rename_i hlt
    have he0 := hmin hlt
    split
    · rename_i w hw
      have hb := pyFind_bounds text ' ' _ w hw
      split <;> (intro h; omega)
    · intro h; omega
  · rename_i hlt
    intro h
    exact absurd h hlt

/-- Every chunk a successful `chunkLoop` run yields is the slice of the
text at its interval, with the interval inside the text. -/
theorem chunkLoop_mem (text : Str) (csz ov : Nat) :
    ∀ (fuel start : Nat) (l : List (Str × Nat × Nat)),
      chunkLoop text csz ov fuel start = some l →
      ∀ cse ∈ l, cse.1 = pySlice text cse.2.1 cse.2.2 ∧
        cse.2.1 ≤ cse.2.2 ∧ cse.2.2 ≤ text.length := by
  intro fuel
  induction fuel with
  | zero => intro start l h; simp [chunkLoop] at h
  | succ fuel ih =>
    intro start l h
    simp only [chunkLoop] at h
    split at h
    · rename_i hs
      have hb := chunkEnd_bounds text csz start (le_of_lt hs)
      split at h
      · injection h with h'
        subst h'
        intro cse hm
        simp only [List.mem_singleton] at hm
        subst hm
        exact ⟨rfl, hb.1, hb.2.1⟩
      · cases hrec : chunkLoop text csz ov fuel (chunkEnd text csz start - ov) with
        | none => rw [hrec] at h; exact absurd h (by simp)
        | some rest =>
          rw [hrec] at h
          injection h with h'
          subst h'
          intro cse hm
          rcases List.mem_cons.mp hm with h1 | h2
          · subst h1
            exact ⟨rfl, hb.1, hb.2.1⟩
          · exact ih _ rest hrec cse h2
    · injection h with h'
      subst h'
      intro cse hm
      simp at hm

/-- With `overlap < chunk_size`, `chunkLoop` with fuel above the remaining
length succeeds, yields strictly increasing starts bounded chunks, and
covers every remaining position. -/
theorem chunkLoop_complete (text : Str) (csz ov : Nat) (hov : ov < csz) :
    ∀ (fuel start : Nat), start < text.length → text.length - start < fuel →
      ∃ l, chunkLoop text csz ov fuel start = some l ∧
        (∀ cse ∈ l, start ≤ cse.2.1 ∧ cse.2.2 ≤ cse.2.1 + csz + 200) ∧
        List.Pairwise (fun a b : Str × Nat × Nat => a.2.1 < b.2.1) l ∧
        (∀ i, start ≤ i → i < text.length → ∃ cse ∈ l, cse.2.1 ≤ i ∧ i < cse.2.2) := by
  intro fuel
  induction fuel with
  | zero => intro start h1 h2; omega
  | succ fuel ih =>
    intro start h1 h2
    have hb := chunkEnd_bounds text csz start (le_of_lt h1)
    by_cases hge : text.length ≤ chunkEnd text csz start
    · refine ⟨[(pySlice text start (chunkEnd text csz start), start, chunkEnd text csz start)],
        ?_, ?_, ?_, ?_⟩
      · simp only [chunkLoop, if_pos h1, if_pos hge]
      · intro cse hm
        simp only [List.mem_singleton] at hm
        subst hm
        exact ⟨le_refl _, hb.2.2⟩
      · simp
      · intro i hi1 hi2
        exact ⟨_, List.mem_singleton_self _, hi1,
          show i < chunkEnd text csz start by omega⟩
    · have hlt : chunkEnd text csz start < text.length := lt_of_not_le hge
      have hprog := chunkEnd_progress text csz start hlt
      have hstep : start < chunkEnd text csz start - ov := by omega
      obtain ⟨rest, hrest, hrP, hrPair, hrCov⟩ :=
        ih (chunkEnd text csz start - ov) (by omega) (by omega)
      refine ⟨(pySlice text start (chunkEnd text csz start), start, chunkEnd text csz start)
          :: rest, ?_, ?_, ?_, ?_⟩
      · simp only [chunkLoop, if_pos h1, if_neg hge]
        rw [hrest]
      · intro cse hm
        rcases List.mem_cons.mp hm with h1' | h2'
        · subst h1'
          exact ⟨le_refl _, hb.2.2⟩
        · have := hrP cse h2'
          constructor
          · omega
          · exact this.2
      · rw [List.pairwise_cons]
        refine ⟨fun b hbm => ?_, hrPair⟩
        have := hrP b hbm
        simp only []
        omega
      · intro i hi1 hi2
        by_cases hcase : i < chunkEnd text csz start
        · exact ⟨_, List.mem_cons_self _ _, hi1, hcase⟩
        · obtain ⟨cse, hcm, hc1, hc2⟩ := hrCov i (by omega) hi2
          exact ⟨cse, List.mem_cons_of_mem _ hcm, hc1, hc2⟩

/-- Taking the whole list is the identity slice. -/
theorem pySlice_zero_length (t : Str) : pySlice t 0 t.length = t := by
  simp [pySlice]

/-- C10: with `chunk_size > overlap`, `_chunk_text` terminates and yields
chunks in strictly increasing start order, each equal to
`text[start:end]` with `end ≤ start + chunk_size + 200` and inside the
text, jointly covering every character position; the caller-derived chunk
sizes are at least 10000 whenever chunking happens (memory limit ≥ 100 MB);
and with `chunk_size ≤ overlap` the loop indeed fails to make progress (a
spaceless two-character text with `chunk_size = overlap = 1` loops for any
fuel). -/
theorem chunkText_complete_and_bounded (text : Str) (csz ov : Nat) :
    (ov < csz → ∃ l, chunkText text csz ov = some l ∧
      List.Pairwise (fun a b : Str × Nat × Nat => a.2.1 < b.2.1) l ∧
      (∀ cse ∈ l, cse.1 = pySlice text cse.2.1 cse.2.2 ∧
        cse.2.2 ≤ cse.2.1 + csz + 200 ∧ cse.2.2 ≤ text.length) ∧
      (∀ i, i < text.length → ∃ cse ∈ l, cse.2.1 ≤ i ∧ i < cse.2.2)) ∧
    (∀ memMB L, 100 ≤ memMB → getChunkSizeChars memMB L < L →
      10000 ≤ getChunkSizeChars memMB L) ∧
    (∀ fuel, chunkLoop "aa".toList 1 1 fuel 0 = none) ∧
    chunkText "aa".toList 1 1 = none := by
  have hnoprog : ∀ fuel, chunkLoop "aa".toList 1 1 fuel 0 = none := by
    intro fuel
    induction fuel with
    | zero => rfl
    | succ fuel ih =>
      have hce : chunkEnd "aa".toList 1 0 = 1 := by decide
      simp only [chunkLoop, hce, ih]
      decide
  refine ⟨?_, ?_, hnoprog, ?_⟩
  · intro hov
    unfold chunkText
    split
    · rename_i hsmall
      refine ⟨[(text, 0, text.length)], rfl, by simp, ?_, ?_⟩
      · intro cse hm
        simp only [List.mem_singleton] at hm
        subst hm
        exact ⟨(pySlice_zero_length text).symm,
          show text.length ≤ 0 + csz + 200 by omega, le_refl _⟩
      · intro i hi
        exact ⟨_, List.mem_singleton_self _, Nat.zero_le _, hi⟩
    · rename_i hbig
      have h0 : 0 < text.length := by omega
      obtain ⟨l, hl, hP, hPair, hCov⟩ :=
        chunkLoop_complete text csz ov hov (text.length + 1) 0 h0 (by omega)
      refine ⟨l, hl, hPair, ?_, ?_⟩
      · intro cse hm
        have h1 := chunkLoop_mem text csz ov (text.length + 1) 0 l hl cse hm
        have h2 := hP cse hm
        exact ⟨h1.1, h2.2, h1.2.2⟩
      · intro i hi
        exact hCov i (Nat.zero_le _) hi
  · intro memMB L hmem hchunk
    simp only [getChunkSizeChars] at hchunk ⊢
    split at hchunk
    · omega
    · rename_i hL
      rw [if_neg hL]
      have hmul : 100 * 1024 * 1024 ≤ memMB * 1024 * 1024 := by
        calc 100 * 1024 * 1024 = 100 * (1024 * 1024) := by ring
          _ ≤ memMB * (1024 * 1024) := Nat.mul_le_mul_right _ hmem
          _ = memMB * 1024 * 1024 := by ring
      have hdiv : 100 * 1024 * 1024 / (4 * 2) ≤ memMB * 1024 * 1024 / (4 * 2) :=
        Nat.div_le_div_right hmul
      have hval : (100 : Nat) * 1024 * 1024 / (4 * 2) = 13107200 := by norm_num
      refine le_min ?_ (le_max_left _ _)
      omega
  · unfold chunkText
    rw [if_neg (by decide)]
    exact hnoprog _

/-- Membership after one dict-insert step of `_deduplicate_findings`: an
entry is either an old one or the freshly keyed finding. -/
theorem dedupInsert_mem (m : List ((Str × Str) × PIIFinding)) (f : PIIFinding) :
    ∀ kg ∈ dedupInsert m f, kg ∈ m ∨ kg = (findingKey f, f) := by
  induction m with
  | nil =>
    intro kg h
    simp only [dedupInsert, List.mem_singleton] at h
    right; exact h
  | cons hd rest ih =>
    obtain ⟨k, g⟩ := hd
    intro kg h
    simp only [dedupInsert] at h
    by_cases hk : k = findingKey f
    · rw [if_pos hk] at h
      split at h
      · rcases List.mem_cons.mp h with h1 | h2
        · right; rw [h1, hk]
        · left; exact List.mem_cons_of_mem _ h2
      · left; exact h
    · rw [if_neg hk] at h
      rcases List.mem_cons.mp h with h1 | h2
      · left; rw [h1]; exact List.mem_cons_self _ _
      · rcases ih kg h2 with h3 | h3
        · left; exact List.mem_cons_of_mem _ h3
        · right; exact h3

/-- Keys after one dict-insert step: unchanged on an update, the new key
appended on a fresh insert. -/
theorem dedupInsert_keys (m : List ((Str × Str) × PIIFinding)) (f : PIIFinding) :
    (dedupInsert m f).map Prod.fst =
      if findingKey f ∈ m.map Prod.fst then m.map Prod.fst
      else m.map Prod.fst ++ [findingKey f] := by
  induction m with
  | nil => simp [dedupInsert]
  | cons hd rest ih =>
    obtain ⟨k, g⟩ := hd
    simp only [dedupInsert, List.map_cons]
    by_cases hk : k = findingKey f
    · rw [if_pos hk]
      have hmem : findingKey f ∈ k :: rest.map Prod.fst := by rw [hk]; exact List.mem_cons_self _ _
      rw [if_pos hmem]
      split <;> simp
    · rw [if_neg hk]
      simp only [List.map_cons, ih]
      by_cases hmem : findingKey f ∈ rest.map Prod.fst
      · rw [if_pos hmem, if_pos (List.mem_cons_of_mem _ hmem)]
      · rw [if_neg hmem, if_neg ?hcons]
        · simp
        case hcons =>
          intro hc
          rcases List.mem_cons.mp hc with h1 | h1
          · exact hk h1.symm
          · exact hmem h1

/-- Lookup after one dict-insert step of `_deduplicate_findings`. -/
theorem assocFind_dedupInsert (m : List ((Str × Str) × PIIFinding)) (f : PIIFinding)
    (k : Str × Str) :
    assocFind k (dedupInsert m f) =
      (if k = findingKey f then
        match assocFind k m with
        | none => some f
        | some g => some (if f.score > g.score then f else g)
      else assocFind k m) := by
  induction m with
  | nil =>
    by_cases hk : k = findingKey f
    · subst hk
      simp [dedupInsert, assocFind]
    · rw [if_neg hk]
      simp only [dedupInsert, assocFind]
      rw [if_neg (fun h => hk h.symm)]
  | cons hd rest ih =>
    obtain ⟨k0, g0⟩ := hd
    by_cases hk : k = findingKey f
    · subst hk
      rw [if_pos rfl]
      simp only [dedupInsert]
      by_cases h0 : k0 = findingKey f
      · rw [if_pos h0]
        have hfind : assocFind (findingKey f) ((k0, g0) :: rest) = some g0 := by
          simp [assocFind, h0]
        rw [hfind]
        by_cases hs : f.score > g0.score
        · rw [if_pos hs]
          simp [assocFind, h0, hs]
        · rw [if_neg hs]
          simp [assocFind, h0, hs]
      · rw [if_neg h0]
        have h0' : ¬ k0 = findingKey f := h0
        simp only [assocFind, if_neg h0']
        rw [ih, if_pos rfl]
    · rw [if_neg hk]
      simp only [dedupInsert]
      by_cases h0 : k0 = findingKey f
      · have hne : ¬ k0 = k := by rw [h0]; exact fun h => hk h.symm
        rw [if_pos h0]
        split <;> simp [assocFind, hne]
      · rw [if_neg h0]
        simp only [assocFind]
        split
        · rfl
        · rw [ih, if_neg hk]

/-- Keys accumulated by the dedup fold are never removed. -/
theorem foldl_dedupInsert_keys_mono (fs : List PIIFinding) :
    ∀ (m : List ((Str × Str) × PIIFinding)) k, k ∈ m.map Prod.fst →
      k ∈ (fs.foldl dedupInsert m).map Prod.fst := by
  induction fs with
  | nil => intro m k h; simp only [List.foldl_nil]; exact h
  | cons f rest ih =>
    intro m k h
    simp only [List.foldl_cons]
    apply ih
    rw [dedupInsert_keys]
    split
    · exact h
    · exact List.mem_append_left _ h

/-- Nodup keys are preserved by the dedup fold. -/
theorem foldl_dedupInsert_keys_nodup (fs : List PIIFinding) :
    ∀ (m : List ((Str × Str) × PIIFinding)), (m.map Prod.fst).Nodup →
      ((fs.foldl dedupInsert m).map Prod.fst).Nodup := by
  induction fs with
  | nil => intro m h; simp only [List.foldl_nil]; exact h
  | cons f rest ih =>
    intro m h
    simp only [List.foldl_cons]
    apply ih
    rw [dedupInsert_keys]
    split
    · exact h
    · rename_i hnot
      exact List.nodup_append.mpr ⟨h, List.nodup_singleton _,
        List.disjoint_singleton.mpr hnot⟩

/-- Entries of the dedup fold: old entries or processed findings keyed by
their own `(entity_type, text)`. -/
theorem foldl_dedupInsert_mem (fs : List PIIFinding) :
    ∀ (m : List ((Str × Str) × PIIFinding)) kg, kg ∈ fs.foldl dedupInsert m →
      kg ∈ m ∨ (kg.2 ∈ fs ∧ kg.1 = findingKey kg.2) := by
  induction fs with
  | nil => intro m kg h; left; simp only [List.foldl_nil] at h; exact h
  | cons f rest ih =>
    intro m kg h
    simp only [List.foldl_cons] at h
    rcases ih (dedupInsert m f) kg h with h1 | h1
    · rcases dedupInsert_mem m f kg h1 with h2 | h2
      · left; exact h2
      · right
        rw [h2]
        exact ⟨List.mem_cons_self _ _, rfl⟩
    · right; exact ⟨List.mem_cons_of_mem _ h1.1, h1.2⟩

/-- Score at a key is monotone along the dedup fold. -/
theorem foldl_dedupInsert_score_mono (fs : List PIIFinding) :
    ∀ (m : List ((Str × Str) × PIIFinding)) k g, assocFind k m = some g →
      ∃ g', assocFind k (fs.foldl dedupInsert m) = some g' ∧ g.score ≤ g'.score := by
  induction fs with
  | nil => intro m k g h; exact ⟨g, by simp only [List.foldl_nil]; exact h, le_refl _⟩
  | cons f rest ih =>
    intro m k g h
    simp only [List.foldl_cons]
    by_cases hk : k = findingKey f
    · have h2 : assocFind k (dedupInsert m f) = some (if f.score > g.score then f else g) := by
        rw [assocFind_dedupInsert, if_pos hk, h]
      obtain ⟨g', hg', hs⟩ := ih (dedupInsert m f) k _ h2
      refine ⟨g', hg', ?_⟩
      split at hs
      · rename_i hgt; exact le_trans (le_of_lt hgt) hs
      · exact hs
    · have h2 : assocFind k (dedupInsert m f) = some g := by
        rw [assocFind_dedupInsert, if_neg hk]; exact h
      exact ih (dedupInsert m f) k g h2

/-- After inserting `f`, its key maps to a finding at least as confident. -/
theorem assocFind_after_insert (m : List ((Str × Str) × PIIFinding)) (f : PIIFinding) :
    ∃ g, assocFind (findingKey f) (dedupInsert m f) = some g ∧ f.score ≤ g.score := by
  rw [assocFind_dedupInsert, if_pos rfl]
  cases h : assocFind (findingKey f) m with
  | none => exact ⟨f, rfl, le_refl _⟩
  | some g0 =>
    refine ⟨_, rfl, ?_⟩
    split
    · exact le_refl _
    · rename_i hng; exact le_of_not_lt hng

/-- Every processed finding's key ends mapped, with at least its score. -/
theorem foldl_dedupInsert_covers (fs : List PIIFinding) :
    ∀ (m : List ((Str × Str) × PIIFinding)) f, f ∈ fs →
      ∃ g, assocFind (findingKey f) (fs.foldl dedupInsert m) = some g ∧
        f.score ≤ g.score := by
  induction fs with
  | nil => intro m f h; simp at h
  | cons f0 rest ih =>
    intro m f h
    simp only [List.foldl_cons]
    rcases List.mem_cons.mp h with h1 | h1
    · subst h1
      obtain ⟨g, hg, hs⟩ := assocFind_after_insert m f
      obtain ⟨g', hg', hs'⟩ := foldl_dedupInsert_score_mono rest (dedupInsert m f) _ g hg
      exact ⟨g', hg', le_trans hs hs'⟩
    · exact ih (dedupInsert m f0) f h1

/-- `assocFind` hits are entries. -/
theorem assocFind_mem (k : Str × Str) :
    ∀ (m : List ((Str × Str) × PIIFinding)) g, assocFind k m = some g → (k, g) ∈ m := by
  intro m
  induction m with
  | nil => intro g h; simp [assocFind] at h
  | cons hd rest ih =>
    obtain ⟨k0, g0⟩ := hd
    intro g h
    simp only [assocFind] at h
    split at h
    · rename_i hk
      injection h with h'
      rw [← hk, h']
      exact List.mem_cons_self _ _
    · exact List.mem_cons_of_mem _ (ih g h)

/-- With nodup keys, membership determines `assocFind`. -/
theorem assocFind_of_mem (k : Str × Str) :
    ∀ (m : List ((Str × Str) × PIIFinding)), (m.map Prod.fst).Nodup →
      ∀ kg ∈ m, kg.1 = k → assocFind k m = some kg.2 := by
  intro m
  induction m with
  | nil => intro _ kg h; simp at h
  | cons hd rest ih =>
    obtain ⟨k0, g0⟩ := hd
    intro hnd kg hm hk
    simp only [List.map_cons, List.nodup_cons] at hnd
    rcases List.mem_cons.mp hm with h1 | h1
    · rw [h1] at hk ⊢
      simp only [assocFind]
      rw [if_pos hk]
    · have hne : ¬ k0 = k := by
        intro he
        apply hnd.1
        rw [he, ← hk]
        exact List.mem_map.mpr ⟨kg, h1, rfl⟩
      simp only [assocFind, if_neg hne]
      exact ih hnd.2 kg h1 hk

/-- C8: deduplication keeps exactly one finding per distinct
`(entity_type, text)` pair, each drawn from the input, and the kept one has
maximal confidence among the findings sharing its pair. -/
theorem deduplicateFindings_unique_and_max (fs : List PIIFinding) :
    (∀ g ∈ deduplicateFindings fs, g ∈ fs) ∧
    ((deduplicateFindings fs).map findingKey).Nodup ∧
    (∀ f ∈ fs, ∃ g ∈ deduplicateFindings fs, findingKey g = findingKey f) ∧
    (∀ g ∈ deduplicateFindings fs, ∀ f ∈ fs, findingKey f = findingKey g →
      f.score ≤ g.score) := by
  by_cases hfs : fs = []
  · subst hfs
    simp [deduplicateFindings]
  · have hout : deduplicateFindings fs = (fs.foldl dedupInsert []).map (·.2) := by
      simp [deduplicateFindings, hfs]
    have hentry : ∀ kg ∈ fs.foldl dedupInsert [], kg.2 ∈ fs ∧ kg.1 = findingKey kg.2 := by
      intro kg h
      rcases foldl_dedupInsert_mem fs [] kg h with h1 | h1
      · simp at h1
      · exact h1
    have hnodup : ((fs.foldl dedupInsert []).map Prod.fst).Nodup :=
      foldl_dedupInsert_keys_nodup fs [] (by simp)
    refine ⟨?_, ?_, ?_, ?_⟩
    · intro g hg
      rw [hout] at hg
      obtain ⟨kg, hkg, hkg2⟩ := List.mem_map.mp hg
      rw [← hkg2]
      exact (hentry kg hkg).1
    · rw [hout, List.map_map]
      have heq : (fs.foldl dedupInsert []).map (findingKey ∘ (·.2)) =
          (fs.foldl dedupInsert []).map Prod.fst :=
        List.map_congr_left (fun kg hkg => ((hentry kg hkg).2).symm)
      rw [heq]
      exact hnodup
    · intro f hf
      obtain ⟨g, hg, _⟩ := foldl_dedupInsert_covers fs [] f hf
      have hmem := assocFind_mem _ _ g hg
      refine ⟨g, ?_, ?_⟩
      · rw [hout]
        exact List.mem_map.mpr ⟨_, hmem, rfl⟩
      · exact ((hentry _ hmem).2).symm
    · intro g hg f hf hkey
      rw [hout] at hg
      obtain ⟨kg, hkg, hkg2⟩ := List.mem_map.mp hg
      have hE := hentry kg hkg
      have hfind := assocFind_of_mem kg.1 (fs.foldl dedupInsert []) hnodup kg hkg rfl
      obtain ⟨g2, hg2, hs2⟩ := foldl_dedupInsert_covers fs [] f hf
      have hk2 : findingKey f = kg.1 := by rw [hkey, ← hkg2, ← hE.2]
      rw [hk2, hfind] at hg2
      injection hg2 with h3
      rw [← h3, hkg2] at hs2
      exact hs2

/-- Length of an in-bounds slice. -/
theorem pySlice_length_of_le (v : Str) (s e : Nat) (h1 : s ≤ e) (h2 : e ≤ v.length) :
    (pySlice v s e).length = e - s := by
  simp only [pySlice, List.length_take, List.length_drop]
  omega

/-- A slice of a slice is a slice of the original list. -/
theorem pySlice_pySlice (v : Str) (s e a b : Nat) (hb : b ≤ e - s) :
    pySlice (pySlice v s e) a b = pySlice v (s + a) (s + b) := by
  simp only [pySlice]
  rw [List.drop_take, List.drop_drop, List.take_take]
  congr 1
  omega

/-- Every finding of `_analyze_text_chunk` under an in-bounds analyzer is
the offset-translated span of an in-bounds result. -/
theorem analyzeTextChunk_mem (env : DetectorEnv) (hval : AnalyzerInBounds env)
    (chunk : Str) (off eoff : Nat) :
    ∀ f ∈ analyzeTextChunk env chunk off eoff,
      ∃ a b, a < b ∧ b ≤ chunk.length ∧ f.start = off + a ∧ f.end_ = off + b ∧
        f.text = pySlice chunk a b := by
  intro f hf
  unfold analyzeTextChunk at hf
  cases h : env.analyze chunk with
  | none => rw [h] at hf; simp at hf
  | some rs =>
    rw [h] at hf
    obtain ⟨r, hr, hrf⟩ := List.mem_map.mp hf
    have hb := hval chunk rs h r hr
    exact ⟨r.start, r.end_, hb.1, hb.2, by rw [← hrf], by rw [← hrf], by rw [← hrf]⟩

/-- Every finding of the chunk-processing loop comes from one of the
chunks. -/
theorem processChunks_mem (env : DetectorEnv) :
    ∀ (chunks : List (Str × Nat × Nat)) (i : Nat) (f : PIIFinding),
      f ∈ processChunks env chunks i →
      ∃ cse ∈ chunks, f ∈ analyzeTextChunk env cse.1 cse.2.1 cse.2.2 := by
  intro chunks
  induction chunks with
  | nil => intro i f h; simp [processChunks] at h
  | cons hd rest ih =>
    obtain ⟨c, s, e⟩ := hd
    intro i f h
    simp only [processChunks] at h
    split at h
    · rcases List.mem_append.mp h with h1 | h1
      · exact ⟨(c, s, e), List.mem_cons_self _ _, h1⟩
      · obtain ⟨cse, hm, hf⟩ := ih (i + 1) f h1
        exact ⟨cse, List.mem_cons_of_mem _ hm, hf⟩
    · simp at h

/-- Membership in an accumulating append-fold. -/
theorem foldl_append_mem (g : Str → List PIIFinding) :
    ∀ (l : List Str) (acc : List PIIFinding) (f : PIIFinding),
      f ∈ l.foldl (fun a v => a ++ g v) acc →
      f ∈ acc ∨ ∃ v ∈ l, f ∈ g v := by
  intro l
  induction l with
  | nil => intro acc f h; left; simpa using h
  | cons v rest ih =>
    intro acc f h
    simp only [List.foldl_cons] at h
    rcases ih (acc ++ g v) f h with h1 | h1
    · rcases List.mem_append.mp h1 with h2 | h2
      · left; exact h2
      · right; exact ⟨v, List.mem_cons_self _ _, h2⟩
    · obtain ⟨w, hw, hf⟩ := h1
      right; exact ⟨w, List.mem_cons_of_mem _ hw, hf⟩

/-- `_deduplicate_findings` only returns input findings. -/
theorem deduplicateFindings_subset (fs : List PIIFinding) :
    ∀ g ∈ deduplicateFindings fs, g ∈ fs := by
  intro g hg
  by_cases hfs : fs = []
  · subst hfs; simp [deduplicateFindings] at hg
  · simp only [deduplicateFindings, if_neg hfs] at hg
    obtain ⟨kg, hkg, hkg2⟩ := List.mem_map.mp hg
    rcases foldl_dedupInsert_mem fs [] kg hkg with h1 | h1
    · simp at h1
    · rw [← hkg2]; exact h1.1

/-- Every chunk a successful `_chunk_text` run yields is the in-bounds
slice of the text at its interval. -/
theorem chunkText_mem (text : Str) (csz ov : Nat) (l : List (Str × Nat × Nat))
    (h : chunkText text csz ov = some l) :
    ∀ cse ∈ l, cse.1 = pySlice text cse.2.1 cse.2.2 ∧
      cse.2.1 ≤ cse.2.2 ∧ cse.2.2 ≤ text.length := by
  unfold chunkText at h
  split at h
  · injection h with h'
    subst h'
    intro cse hm
    simp only [List.mem_singleton] at hm
    subst hm
    exact ⟨(pySlice_zero_length text).symm, Nat.zero_le _, le_refl _⟩
  · exact chunkLoop_mem text csz ov _ 0 l h

/-- Every finding contributed by one variant in the `detect_pii` loop is an
in-bounds span of that variant. -/
theorem perVariantFindings_mem (env : DetectorEnv) (hval : AnalyzerInBounds env) (v : Str) :
    ∀ f ∈ perVariantFindings env v,
      f.start < f.end_ ∧ f.end_ ≤ v.length ∧ pySlice v f.start f.end_ = f.text := by
  intro f hf
  unfold perVariantFindings at hf
  split at hf
  · simp at hf
  · split at hf
    · obtain ⟨a, b, hab, hble, hs, he, ht⟩ := analyzeTextChunk_mem env hval v 0 v.length f hf
      refine ⟨?_, ?_, ?_⟩
      · rw [hs, he]; omega
      · rw [he]; omega
      · rw [hs, he, ht]
        simp
    · cases hct : chunkText v (getChunkSizeChars (getMemoryLimitMB env.memLimitRaw) v.length)
        with
      | none => rw [hct] at hf; simp at hf
      | some chunks =>
        rw [hct] at hf
        obtain ⟨cse, hcm, hfc⟩ := processChunks_mem env chunks 0 f hf
        obtain ⟨c, s, e⟩ := cse
        have hprops := chunkText_mem v _ _ chunks hct (c, s, e) hcm
        have hp1 : c = pySlice v s e := hprops.1
        have hse : s ≤ e := hprops.2.1
        have hel : e ≤ v.length := hprops.2.2
        obtain ⟨a, b, hab, hble, hs, he, ht⟩ := analyzeTextChunk_mem env hval c s e f hfc
        have hclen : c.length = e - s := by
          rw [hp1]
          exact pySlice_length_of_le v s e hse hel
        refine ⟨?_, ?_, ?_⟩
        · rw [hs, he]; omega
        · rw [he]; omega
        · rw [hs, he, ht, hp1, pySlice_pySlice v s e a b (by omega)]

/-- C1 (corrected): each finding returned by `detect_pii` has a nonempty
span `start < end` that is in bounds of, and whose slice reproduces
`finding.text` in, one of the scanned encoding variants of the input (which
include the input itself) — not necessarily the original text. -/
theorem detectPii_offsets_within_some_variant (env : DetectorEnv) (t : Str)
    (hval : AnalyzerInBounds env) :
    ∀ f ∈ detectPii env t, ∃ v ∈ getTextVariants env t,
      f.start < f.end_ ∧ f.end_ ≤ v.length ∧ pySlice v f.start f.end_ = f.text := by
  intro f hf
  unfold detectPii at hf
  split at hf
  · simp at hf
  · have hf2 := deduplicateFindings_subset _ f hf
    rcases foldl_append_mem (perVariantFindings env) (getTextVariants env t) [] f hf2
      with h1 | h1
    · simp at h1
    · obtain ⟨v, hv, hfv⟩ := h1
      exact ⟨v, hv, perVariantFindings_mem env hval v f hfv⟩

/-- C1 counterexample: on the text `"t!est@x.co"` with an analyzer that
recognizes the email inside the separator-stripped variant, `detect_pii`
returns a finding whose offsets do not slice the original text to the
finding's text. -/
theorem detectPii_offsets_counterexample :
    cexFinding ∈ detectPii env0 cexText ∧
    pySlice cexText cexFinding.start cexFinding.end_ ≠ cexFinding.text := by
  decide

/-- C1 witness: the corrected statement is nonvacuous at the concrete
environment `env0` and text `cexText`. -/
theorem detectPii_offsets_witness :
    ∃ v ∈ getTextVariants env0 cexText,
      cexFinding.start < cexFinding.end_ ∧ cexFinding.end_ ≤ v.length ∧
      pySlice v cexFinding.start cexFinding.end_ = cexFinding.text := by
  have hval : AnalyzerInBounds env0 := by
    intro chunk rs h r hr
    simp only [env0] at h
    split at h
    · rename_i hc
      injection h with h'
      subst h'
      simp only [List.mem_singleton] at hr
      subst hr
      rw [hc]
      decide
    · injection h with h'
      subst h'
      simp at hr
  exact detectPii_offsets_within_some_variant env0 cexText hval cexFinding (by decide)

/-- `_verify_deletion` succeeds exactly when no remaining references are
reported (its exception path reports a remaining reference). -/
theorem verifyDeletion_success_iff (env : GdprEnv) (req : DeletionRequest) :
    (verifyDeletion env req).success = true ↔
      (verifyDeletion env req).remaining_references = [] := by
  unfold verifyDeletion
  cases h : verifyLoop env req.knowledge_base_ids req.subject_identifiers with
  | error e => simp
  | ok remaining => simp [List.length_eq_zero]

/-- Value of the `execute_deletion` body when a phase raises. -/
theorem executeDeletionBody_error (env : GdprEnv) (rid : Str) (r1 : DeletionRequest)
    (e : Str) (log dd : List Str) (dv : Nat)
    (hpo : phasesOutcome env r1 = .error (e, log, dd, dv)) :
    executeDeletionBody env rid r1 =
      ({ success := false, request_id := rid, deleted_documents := dd,
         deleted_vectors := dv, remaining_references := [], verification_passed := false,
         error_messages := ["Deletion execution failed: ".toList ++ e],
         deletion_log := log },
       { r1 with status := "failed".toList }) := by
  unfold executeDeletionBody
  rw [hpo]

/-- Value of the `execute_deletion` body when all phases succeed. -/
theorem executeDeletionBody_ok (env : GdprEnv) (rid : Str) (r1 : DeletionRequest)
    (docs : List AffectedDoc) (dd : List Str) (dv : Nat) (log4 : List Str)
    (hpo : phasesOutcome env r1 = .ok (docs, dd, dv, log4)) :
    executeDeletionBody env rid r1 =
      (if (verifyDeletion env r1).success then
        ({ success := true, request_id := rid, deleted_documents := dd,
           deleted_vectors := dv,
           remaining_references := (verifyDeletion env r1).remaining_references,
           verification_passed := true,
           deletion_log := log4 ++
             ["Deletion verified successfully - no PII traces found".toList] },
         { r1 with status := "completed".toList,
                   verification_status := "verified".toList })
      else
        ({ success := false, request_id := rid, deleted_documents := dd,
           deleted_vectors := dv,
           remaining_references := (verifyDeletion env r1).remaining_references,
           verification_passed := false,
           error_messages := ["Verification failed: ".toList ++
             natStr (verifyDeletion env r1).remaining_references.length ++
             " references still found".toList],
           deletion_log := log4 },
         { r1 with status := "failed".toList,
                   verification_status := "failed".toList })) := by
  unfold executeDeletionBody
  rw [hpo]

/-- C4: for a stored request, `execute_deletion` returns (never raises);
verification gates the outcome — zero remaining references yields
`success = True` and status `completed`, a remaining reference yields
`success = False` and status `failed` — and an exception in the phases
yields `success = False`, status `failed`, a descriptive error message and
the partial results accumulated before the exception. -/
theorem executeDeletion_verification_gating (env : GdprEnv) (reqs : RequestMap)
    (rid : Str) (req : DeletionRequest) (h : reqs rid = some req) :
    ∃ res reqs', executeDeletion env reqs rid = .ok (res, reqs') ∧
      ∃ req', reqs' rid = some req' ∧
        ((verifyDeletion env { req with status := "in_progress".toList }).success = true ↔
          (verifyDeletion env
            { req with status := "in_progress".toList }).remaining_references = []) ∧
        (∀ pr, phasesOutcome env { req with status := "in_progress".toList } = .ok pr →
          res.remaining_references =
            (verifyDeletion env
              { req with status := "in_progress".toList }).remaining_references ∧
          ((verifyDeletion env
              { req with status := "in_progress".toList }).remaining_references = [] →
            res.success = true ∧ req'.status = "completed".toList) ∧
          ((verifyDeletion env
              { req with status := "in_progress".toList }).remaining_references ≠ [] →
            res.success = false ∧ req'.status = "failed".toList)) ∧
        (∀ e log dd dv,
          phasesOutcome env { req with status := "in_progress".toList } =
            .error (e, log, dd, dv) →
          res.success = false ∧ req'.status = "failed".toList ∧
          res.error_messages = ["Deletion execution failed: ".toList ++ e] ∧
          res.deletion_log = log ∧ res.deleted_documents = dd ∧
          res.deleted_vectors = dv) := by
  have hgen : executeDeletion env reqs rid = .ok
      ((executeDeletionBody env rid { req with status := "in_progress".toList }).1,
        fun k => if k = rid then some
          { (executeDeletionBody env rid { req with status := "in_progress".toList }).2 with
            deletion_log :=
              (executeDeletionBody env rid
                { req with status := "in_progress".toList }).1.deletion_log,
            deleted_documents :=
              (executeDeletionBody env rid
                { req with status := "in_progress".toList }).1.deleted_documents }
          else reqs k) := by
    unfold executeDeletion
    rw [h]
  refine ⟨(executeDeletionBody env rid { req with status := "in_progress".toList }).1,
    _, hgen,
    { (executeDeletionBody env rid { req with status := "in_progress".toList }).2 with
      deletion_log :=
        (executeDeletionBody env rid
          { req with status := "in_progress".toList }).1.deletion_log,
      deleted_documents :=
        (executeDeletionBody env rid
          { req with status := "in_progress".toList }).1.deleted_documents },
    by simp, verifyDeletion_success_iff env _, ?_, ?_⟩
  · intro pr hpo
    obtain ⟨docs, dd, dv, log4⟩ := pr
    have hbody := executeDeletionBody_ok env rid _ docs dd dv log4 hpo
    by_cases hv :
        (verifyDeletion env { req with status := "in_progress".toList }).success = true
    · rw [if_pos hv] at hbody
      rw [hbody]
      exact ⟨rfl, fun _ => ⟨rfl, rfl⟩,
        fun hrem => absurd ((verifyDeletion_success_iff env _).mp hv) hrem⟩
    · rw [if_neg hv] at hbody
      rw [hbody]
      exact ⟨rfl, fun hrem => absurd ((verifyDeletion_success_iff env _).mpr hrem) hv,
        fun _ => ⟨rfl, rfl⟩⟩
  · intro e log dd dv hpo
    have hbody := executeDeletionBody_error env rid _ e log dd dv hpo
    rw [hbody]
    exact ⟨rfl, rfl, rfl, rfl, rfl, rfl⟩

/-- C4 witness: a concrete stored request under an all-successful
environment executes to a successful, completed deletion. -/
theorem executeDeletion_witness :
    ∃ res reqs', executeDeletion gdprEnv0 reqs0 rid0 = .ok (res, reqs') ∧
      res.success = true ∧
      ∃ req', reqs' rid0 = some req' ∧ req'.status = "completed".toList := by
  obtain ⟨res, reqs', hok, req', hreq', hiff, hokcase, herrcase⟩ :=
    executeDeletion_verification_gating gdprEnv0 reqs0 rid0 req0 (by decide)
  have hpo : phasesOutcome gdprEnv0 { req0 with status := "in_progress".toList } =
      .ok ([], [], 0,
        ["Identified 0 potentially affected documents".toList,
         "Deleted 0 documents from S3".toList,
         "Deleted 0 vector embeddings".toList,
         "Synchronized all data sources".toList]) := by rfl
  have hrem : (verifyDeletion gdprEnv0
      { req0 with status := "in_progress".toList }).remaining_references = [] := by decide
  obtain ⟨_, hcompleted, _⟩ := hokcase _ hpo
  exact ⟨res, reqs', hok, (hcompleted hrem).1, req', hreq', (hcompleted hrem).2⟩

end BedrockKB
